import Mathlib

/-!
Shallow embedding of the `art_dice` crate (symbol-carrying dice, exact roll
probabilities) and proofs about it.

Conventions of the embedding:
* Rust `usize` values are modelled as `Nat`; the only subtraction the code
  performs (`sides_len - n` in `collect_symbols`) panics on underflow in the
  source, so the embedding guards it and returns `none` for the panic.
* Rust `HashMap` values are modelled as association lists; every operation the
  code performs on them (insert-or-increment, value sum, key iteration,
  lookup) is order-insensitive, and map equality is modelled extensionally.
* `ItemCounter<DieSymbol>` keys built exclusively through `add` (as in
  `RollResultPossibility`) never hold a zero count, so their derived
  equality/hash contract coincides with multiset equality; outcome keys are
  therefore modelled as `Multiset DieSymbol`.  The generic `ItemCounter` is
  modelled separately (association list) to study its contract in full,
  including zero-amount `add_amount` calls.
* `f64` results (`get_odds`, the three odds of `RollCompareResult`) are a
  single exact-integer division performed last; they are modelled as `ℚ`.
* Rust's stable `sort_by` is modelled by `List.insertionSort`, which is stable
  (the head of the list is inserted in front of the equal elements of the
  sorted tail).
-/

namespace ArtDice

/-- Embedding of `dice::DieSymbol` (`src/dice/mod.rs`): a validated name. -/
structure DieSymbol where
  name : String
deriving DecidableEq, Repr

/-- Embedding of `DieSymbol::new`: trims, rejects the empty result. -/
def DieSymbol.new (val : String) : Except String DieSymbol :=
  let trimmed := val.trim
  match trimmed.length with
  | 0 => .error "Value cannot be empty"
  | _ => .ok ⟨trimmed⟩

/-- Embedding of `dice::DieSide` (`src/dice/mod.rs`): the symbols on one face. -/
structure DieSide where
  symbols : List DieSymbol
deriving DecidableEq, Repr

/-- Embedding of `dice::Die` (`src/dice/mod.rs`). -/
structure Die where
  sides : List DieSide
deriving DecidableEq, Repr

/-- Embedding of `Die::new`: rejects fewer than two sides. -/
def Die.new (sides : List DieSide) : Except String Die :=
  match sides.length with
  | 0 => .error "Die must have at least 2 sides"
  | 1 => .error "Die must have at least 2 sides"
  | _ => .ok ⟨sides⟩

namespace standard

/-- Embedding of `dice::standard::pip` (`DieSymbol::new("Pip").unwrap()`). -/
def pip : DieSymbol := ⟨"Pip"⟩

/-- Embedding of `dice::standard::side_of_n_symbols`. -/
def side_of_n_symbols (n : Nat) (symbol : DieSymbol) : DieSide :=
  ⟨List.replicate n symbol⟩

/-- Embedding of `dice::standard::n_sided_die`: side `i` (for `i = 1..n`)
carries `i` pips. -/
def n_sided_die (n : Nat) : Die :=
  ⟨(List.range' 1 n).map (fun i => side_of_n_symbols i pip)⟩

/-- Embedding of `dice::standard::d4`. -/
def d4 : Die := n_sided_die 4

/-- Embedding of `dice::standard::d8`. -/
def d8 : Die := n_sided_die 8

end standard

/-! ## The generic multiset counter (`src/item_counter.rs`)

`ItemCounter<T>` wraps a `HashMap<T, usize>`, modelled here as an association
list (`items`).  Derived `PartialEq` on `HashMap` compares lengths and then
looks every key of the left map up in the right one; `rustEq` below is that
formula verbatim. -/

/-- Embedding of `item_counter::ItemCounter` (the trait bounds of the Rust
struct live on the operations here). -/
structure ItemCounter (T : Type) where
  items : List (T × Nat)

/-- Embedding of `ItemCounter::new`. -/
def ItemCounter.new (T : Type) : ItemCounter T := ⟨[]⟩

/-- Embedding of `ItemCounter::add_amount`: increment in place when the key is
present, otherwise insert the key with the given amount. -/
def ItemCounter.add_amount {T : Type} [DecidableEq T]
    (c : ItemCounter T) (item : T) (amount : Nat) : ItemCounter T :=
  if c.items.any (fun e => e.1 = item) then
    ⟨c.items.map (fun e => if e.1 = item then (e.1, e.2 + amount) else e)⟩
  else
    ⟨c.items ++ [(item, amount)]⟩

/-- Embedding of `ItemCounter::add` (`add_amount` with amount 1). -/
def ItemCounter.add {T : Type} [DecidableEq T]
    (c : ItemCounter T) (item : T) : ItemCounter T :=
  c.add_amount item 1

/-- Embedding of `ItemCounter::get_count`: stored value, or 0 when absent. -/
def ItemCounter.get_count {T : Type} [DecidableEq T]
    (c : ItemCounter T) (item : T) : Nat :=
  match c.items.find? (fun e => e.1 = item) with
  | some e => e.2
  | none => 0

/-- The `HashMap` lookup `self.items.get(item)` of the embedding. -/
def ItemCounter.lookup {T : Type} [DecidableEq T]
    (c : ItemCounter T) (item : T) : Option Nat :=
  (c.items.find? (fun e => e.1 = item)).map (fun e => e.2)

/-- Derived `PartialEq` of the wrapped `HashMap`: equal sizes and every entry
of the left map found with the same value in the right map. -/
def ItemCounter.rustEq {T : Type} [DecidableEq T]
    (a b : ItemCounter T) : Prop :=
  a.items.length = b.items.length ∧ ∀ e ∈ a.items, b.lookup e.1 = some e.2

/-- The exact item sequence the `Hash` impl feeds to the hasher: keys sorted
ascending, each repeated as many times as its stored count.  Two counters with
the same `hashSeq` hash identically under every `Hasher`. -/
def ItemCounter.hashSeq {T : Type} [DecidableEq T] [LinearOrder T]
    (c : ItemCounter T) : List T :=
  (List.insertionSort (· ≤ ·) (c.items.map (fun e => e.1))).flatMap
    (fun k => List.replicate (c.get_count k) k)

/-- A build script for a counter: each entry is one `add_amount` call (an
`add` call is an entry with amount 1). -/
def ItemCounter.ofOps {T : Type} [DecidableEq T] (ops : List (T × Nat)) :
    ItemCounter T :=
  ops.foldl (fun c op => c.add_amount op.1 op.2) (ItemCounter.new T)

/-! ## The N-ary Cartesian product enumerator (`src/multi_cart.rs`) -/

/-- Embedding of `multi_cart::MultiCartesianProduct`'s state. -/
structure MultiCartesianProduct (α : Type) where
  sets : List (List α)
  maximums : List Nat
  indexes : List Nat
  is_complete : Bool

/-- Embedding of `MultiCartesianProduct::new`. -/
def MultiCartesianProduct.new {α : Type} (sets : List (List α)) :
    MultiCartesianProduct α :=
  ⟨sets, sets.map List.length, sets.map (fun _ => 0), false⟩

/-- Embedding of the element-selection loop of `next`
(`sets[i][indexes[i]]` for every `i`); `none` models the out-of-bounds panic
(an empty set, or mismatched list lengths). -/
def selectAt {α : Type} : List (List α) → List Nat → Option (List α)
  | [], [] => some []
  | xs :: rest, i :: is =>
    match xs[i]?, selectAt rest is with
    | some v, some t => some (v :: t)
    | _, _ => none
  | _, _ => none

/-- Embedding of `MultiCartesianProduct::increment_counter`'s carry loop over
the index/maximum lists.  Returns the new indexes and the final `incrementing`
flag (`true` means the carry ran past the last sequence, i.e. `is_complete`).
`none` models the panics: modulo by zero (`maximums[index] == 0`) and
out-of-bounds access to `maximums`. -/
def incrementList : List Nat → List Nat → Option (List Nat × Bool)
  | [], _ => some ([], true)
  | _ :: _, [] => none
  | i :: is, m :: ms =>
    if m = 0 then none
    else if (i + 1) % m = 0 then
      (incrementList is ms).map (fun p => (0 :: p.1, p.2))
    else some ((i + 1) % m :: is, false)

/-- Embedding of `<MultiCartesianProduct as Iterator>::next`.  The outer
`Option` models a panic; the inner `Option (List α)` is the iterator's yield
(`none` = exhausted), paired with the successor state. -/
def MultiCartesianProduct.next {α : Type} (s : MultiCartesianProduct α) :
    Option (Option (List α) × MultiCartesianProduct α) :=
  if s.is_complete then some (none, s)
  else
    match selectAt s.sets s.indexes with
    | none => none
    | some v =>
      match incrementList s.indexes s.maximums with
      | none => none
      | some (idx, c) => some (some v, ⟨s.sets, s.maximums, idx, c⟩)

/-- Drives the iterator for `fuel` calls to `next`, collecting the yielded
tuples; `some out` means the iterator yielded `out` and then signalled
exhaustion, `none` means a panic or exhausted fuel. -/
def runFuel {α : Type} : Nat → MultiCartesianProduct α → Option (List (List α))
  | 0, _ => none
  | fuel + 1, s =>
    match s.next with
    | none => none
    | some (none, _) => some []
    | some (some v, s2) => (runFuel fuel s2).map (fun out => v :: out)

/-- The odometer enumeration the spec describes: one tuple per choice of one
element from each sequence, sequence 0 varying fastest. -/
def odometer {α : Type} : List (List α) → List (List α)
  | [] => [[]]
  | xs :: rest => (odometer rest).flatMap (fun t => xs.map (fun x => x :: t))

/-- The index odometer over the given digit bounds (digit 0 fastest). -/
def odoIdx (dims : List Nat) : List (List Nat) :=
  odometer (dims.map List.range)

/-! ## The roll engine (`src/rolls/mod.rs`) -/

/-- Embedding of `rolls::RollResultPossibility`: an `ItemCounter<DieSymbol>`
built exclusively through `add`, hence (see the header) a multiset. -/
structure RollResultPossibility where
  symbols : Multiset DieSymbol
deriving DecidableEq

/-- Embedding of `RollResultPossibility::new`. -/
def RollResultPossibility.mkEmpty : RollResultPossibility := ⟨0⟩

/-- Embedding of `RollResultPossibility::add_symbols`: add each listed symbol
once to the counter. -/
def RollResultPossibility.add_symbols (p : RollResultPossibility)
    (symbols : List DieSymbol) : RollResultPossibility :=
  ⟨p.symbols + Multiset.ofList symbols⟩

/-- Embedding of `RollResultPossibility::total_count`
(`ItemCounter::total_count`, the sum of all counts). -/
def RollResultPossibility.total_count (p : RollResultPossibility) : Nat :=
  Multiset.card p.symbols

/-- Embedding of `rolls::RollTargetTypes`. -/
inductive RollTargetTypes where
  | Exactly
  | AtLeast
  | AtMost
deriving DecidableEq

/-- Embedding of `rolls::RollTarget`. -/
structure RollTarget where
  target_type : RollTargetTypes
  amount : Nat
  symbols : List DieSymbol

/-- Embedding of `RollTarget::exactly_n_of`. -/
def RollTarget.exactly_n_of (n : Nat) (symbols : List DieSymbol) : RollTarget :=
  ⟨RollTargetTypes.Exactly, n, symbols⟩

/-- Embedding of `RollTarget::at_least_n_of`. -/
def RollTarget.at_least_n_of (n : Nat) (symbols : List DieSymbol) : RollTarget :=
  ⟨RollTargetTypes.AtLeast, n, symbols⟩

/-- Embedding of `RollTarget::at_most_n_of`. -/
def RollTarget.at_most_n_of (n : Nat) (symbols : List DieSymbol) : RollTarget :=
  ⟨RollTargetTypes.AtMost, n, symbols⟩

/-- Embedding of `rolls::RollCollectionTypes`. -/
inductive RollCollectionTypes where
  | CollectAll
  | TakeHighestN (n : Nat)
  | TakeLowestN (n : Nat)
  | RemoveHighestN (n : Nat)
  | RemoveLowestN (n : Nat)
deriving DecidableEq

/-- Embedding of `rolls::RollCollectionPolicy`. -/
structure RollCollectionPolicy where
  coll_type : RollCollectionTypes
  symbols : List DieSymbol

/-- Embedding of `RollCollectionPolicy::collect_all`. -/
def RollCollectionPolicy.collect_all (symbols : List DieSymbol) :
    RollCollectionPolicy :=
  ⟨RollCollectionTypes.CollectAll, symbols⟩

/-- Embedding of `RollCollectionPolicy::take_highest_n_of`. -/
def RollCollectionPolicy.take_highest_n_of (n : Nat) (symbols : List DieSymbol) :
    RollCollectionPolicy :=
  ⟨RollCollectionTypes.TakeHighestN n, symbols⟩

/-- Embedding of `RollCollectionPolicy::take_lowest_n_of`. -/
def RollCollectionPolicy.take_lowest_n_of (n : Nat) (symbols : List DieSymbol) :
    RollCollectionPolicy :=
  ⟨RollCollectionTypes.TakeLowestN n, symbols⟩

/-- Embedding of `RollCollectionPolicy::remove_highest_n_of`. -/
def RollCollectionPolicy.remove_highest_n_of (n : Nat)
    (symbols : List DieSymbol) : RollCollectionPolicy :=
  ⟨RollCollectionTypes.RemoveHighestN n, symbols⟩

/-- Embedding of `RollCollectionPolicy::remove_lowest_n_of`. -/
def RollCollectionPolicy.remove_lowest_n_of (n : Nat)
    (symbols : List DieSymbol) : RollCollectionPolicy :=
  ⟨RollCollectionTypes.RemoveLowestN n, symbols⟩

/-- The per-side filtering step of `collect_symbols`: keep only the
policy-relevant symbols of each rolled side, in their on-side order. -/
def filteredSides (roll : List DieSide) (policy : RollCollectionPolicy) :
    List (List DieSymbol) :=
  roll.map (fun x => x.symbols.filter (fun y => policy.symbols.contains y))

/-- The ranking step of `collect_symbols`: the code's stable ascending
`sort_by` on the filtered-symbol count, followed by `reverse`. -/
def rankedSides (roll : List DieSide) (policy : RollCollectionPolicy) :
    List (List DieSymbol) :=
  (List.insertionSort (fun a b => a.length ≤ b.length)
    (filteredSides roll policy)).reverse

/-- Embedding of `RollProbabilities::collect_symbols`.  `none` models the
`usize` underflow panic of `sides_len - n` (debug build) for the two
`Lowest` policy kinds when `n` exceeds the number of rolled sides. -/
def collect_symbols (roll : List DieSide) (policy : RollCollectionPolicy) :
    Option (List DieSymbol) :=
  match policy.coll_type with
  | RollCollectionTypes.CollectAll => some (rankedSides roll policy).flatten
  | RollCollectionTypes.TakeHighestN n =>
    some ((rankedSides roll policy).take n).flatten
  | RollCollectionTypes.TakeLowestN n =>
    if n ≤ (rankedSides roll policy).length then
      some ((rankedSides roll policy).drop
        ((rankedSides roll policy).length - n)).flatten
    else none
  | RollCollectionTypes.RemoveHighestN n =>
    some ((rankedSides roll policy).drop n).flatten
  | RollCollectionTypes.RemoveLowestN n =>
    if n ≤ (rankedSides roll policy).length then
      some ((rankedSides roll policy).take
        ((rankedSides roll policy).length - n)).flatten
    else none

/-- Joint-roll enumeration of `RollProbabilities::new`: itertools'
`multi_cartesian_product` over the dice's side lists (first die outermost). -/
def cartesianRolls : List (List DieSide) → List (List DieSide)
  | [] => [[]]
  | xs :: rest => xs.flatMap (fun x => (cartesianRolls rest).map (fun t => x :: t))

/-- One `HashMap` update of `new`'s loop: increment the occurrence count of
the key when present, else insert it with count 1. -/
def addRoll : List (RollResultPossibility × Nat) → RollResultPossibility →
    List (RollResultPossibility × Nat)
  | [], p => [(p, 1)]
  | e :: es, p => if e.1 = p then (e.1, e.2 + 1) :: es else e :: addRoll es p

/-- Applies `collect_symbols` to every joint roll, propagating a panic. -/
def collectRolls (rolls : List (List DieSide)) (policy : RollCollectionPolicy) :
    Option (List (List DieSymbol)) :=
  match rolls with
  | [] => some []
  | r :: rs =>
    match collect_symbols r policy, collectRolls rs policy with
    | some c, some cs => some (c :: cs)
    | _, _ => none

/-- Sum of the occurrence counts of a table (`occur.values().sum()`). -/
def sumCounts (occ : List (RollResultPossibility × Nat)) : Nat :=
  (occ.map (fun e => e.2)).sum

/-- Embedding of `rolls::RollProbabilities`. -/
structure RollProbabilities where
  occurrences : List (RollResultPossibility × Nat)
  total : Nat
deriving DecidableEq

/-- Embedding of `RollProbabilities::new`.  The outer `Option` models a panic
inside the enumeration loop (see `collect_symbols`); the `Except` carries the
documented empty-pool error. -/
def RollProbabilities.new (dice : List Die) (policy : RollCollectionPolicy) :
    Option (Except String RollProbabilities) :=
  if dice.length = 0 then some (.error "must include at least one die")
  else
    match collectRolls (cartesianRolls (dice.map Die.sides)) policy with
    | none => none
    | some collecteds =>
      let occur := collecteds.foldl
        (fun occ c => addRoll occ (RollResultPossibility.mkEmpty.add_symbols c)) []
      some (.ok ⟨occur, sumCounts occur⟩)

/-- The per-target count loop of `get_odds`: the key's counts summed over the
target's symbol slice. -/
def targetCount (poss : RollResultPossibility) (target : RollTarget) : Nat :=
  target.symbols.foldl (fun count symbol => count + poss.symbols.count symbol) 0

/-- The per-target comparison of `get_odds`. -/
def targetCond (poss : RollResultPossibility) (target : RollTarget) : Bool :=
  match target.target_type with
  | RollTargetTypes.Exactly => targetCount poss target == target.amount
  | RollTargetTypes.AtLeast => targetCount poss target ≥ target.amount
  | RollTargetTypes.AtMost => targetCount poss target ≤ target.amount

/-- The numerator accumulated by `get_odds`' loop: conjunction (`cond &`) of
all target conditions, adding the key's occurrence count when it holds. -/
def oddsNumerator (rp : RollProbabilities) (targets : List RollTarget) : Nat :=
  rp.occurrences.foldl
    (fun acc e =>
      if targets.foldl (fun cond t => cond && targetCond e.1 t) true
      then acc + e.2 else acc) 0

/-- Embedding of `RollProbabilities::get_odds`; the final (and only)
floating-point division is modelled exactly in `ℚ`. -/
def RollProbabilities.get_odds (rp : RollProbabilities)
    (targets : List RollTarget) : ℚ :=
  if rp.total = 0 then 0
  else (oddsNumerator rp targets : ℚ) / (rp.total : ℚ)

/-- Embedding of `rolls::RollCompareResult`. -/
structure RollCompareResult where
  wins : Nat
  ties : Nat
  losses : Nat
  total : Nat

/-- Embedding of `RollCompareResult::new`. -/
def RollCompareResult.mk' (wins ties losses : Nat) : RollCompareResult :=
  ⟨wins, ties, losses, wins + ties + losses⟩

/-- The per-pair win/tie/loss weight of `roll_against`. -/
def compareStep (x y : RollResultPossibility × Nat) : Nat × Nat × Nat :=
  let occurrences := x.2 * y.2
  match compare x.1.total_count y.1.total_count with
  | Ordering.gt => (occurrences, 0, 0)
  | Ordering.eq => (0, occurrences, 0)
  | Ordering.lt => (0, 0, occurrences)

/-- Embedding of `RollProbabilities::roll_against`: fold the per-pair weights
of the full occurrence-table cross product. -/
def RollProbabilities.roll_against (a b : RollProbabilities) :
    RollCompareResult :=
  let pairs := a.occurrences.flatMap (fun x => b.occurrences.map (fun y => (x, y)))
  let wtl := pairs.foldl
    (fun acc p =>
      (acc.1 + (compareStep p.1 p.2).1,
       acc.2.1 + (compareStep p.1 p.2).2.1,
       acc.2.2 + (compareStep p.1 p.2).2.2)) (0, 0, 0)
  RollCompareResult.mk' wtl.1 wtl.2.1 wtl.2.2

/-- Embedding of `RollCompareResult::win_odds` (exact division in `ℚ`). -/
def RollCompareResult.win_odds (r : RollCompareResult) : ℚ :=
  if r.total = 0 then 0 else (r.wins : ℚ) / (r.total : ℚ)

/-- Embedding of `RollCompareResult::tie_odds` (exact division in `ℚ`). -/
def RollCompareResult.tie_odds (r : RollCompareResult) : ℚ :=
  if r.total = 0 then 0 else (r.ties : ℚ) / (r.total : ℚ)

/-- Embedding of `RollCompareResult::loss_odds` (exact division in `ℚ`). -/
def RollCompareResult.loss_odds (r : RollCompareResult) : ℚ :=
  if r.total = 0 then 0 else (r.losses : ℚ) / (r.total : ℚ)

/-! ## Spec-side definitions

These definitions follow the specification's wording (not the code) and are
compared with the embedded code in the claim theorems. -/

/-- Spec wording for a target's count: the sum of the key's counts over the
target's symbols. -/
def specTargetCount (poss : RollResultPossibility) (target : RollTarget) : Nat :=
  (target.symbols.map (fun s => poss.symbols.count s)).sum

/-- Spec wording for a single target holding on an outcome key: the summed
count compares to the amount per the target kind. -/
def targetHolds (poss : RollResultPossibility) (target : RollTarget) : Prop :=
  match target.target_type with
  | RollTargetTypes.Exactly => specTargetCount poss target = target.amount
  | RollTargetTypes.AtLeast => specTargetCount poss target ≥ target.amount
  | RollTargetTypes.AtMost => specTargetCount poss target ≤ target.amount

instance instDecidableTargetHolds (poss : RollResultPossibility)
    (target : RollTarget) : Decidable (targetHolds poss target) := by
  unfold targetHolds
  cases target.target_type <;> exact inferInstance

/-- Spec wording for `get_odds`' numerator: the sum of the occurrence counts
of those outcome keys for which every target in the list holds. -/
def specNumerator (rp : RollProbabilities) (targets : List RollTarget) : Nat :=
  ((rp.occurrences.filter
      (fun e => decide (∀ t ∈ targets, targetHolds e.1 t))).map
    (fun e => e.2)).sum

/-- Spec wording for the scalar value of an outcome key: the total symbol
count of its multiset, unfiltered. -/
def scalarValue (p : RollResultPossibility) : Nat := p.total_count

/-- The total pair weight, over all pairs of outcome keys of `a` with equal
scalar value, of the product of the two occurrence counts. -/
def equalValueWeight (a : RollProbabilities) : Nat :=
  (a.occurrences.map (fun x =>
    (a.occurrences.map (fun y =>
      if scalarValue x.1 = scalarValue y.1 then x.2 * y.2 else 0)).sum)).sum

/-- Spec wording for the probability that two independent draws from `a`
produce equal scalar value (0 on the degenerate empty distribution, via
division by zero in `ℚ`). -/
def specTieProb (a : RollProbabilities) : ℚ :=
  (equalValueWeight a : ℚ) / (sumCounts a.occurrences : ℚ) ^ 2

/-- Spec wording for the stable descending sort claimed in §4.3: sides sorted
by descending relevance score with equal-score sides kept in their original
order (insertion sort with a "greater or equal" relation is exactly that). -/
def specRankStableDesc (l : List (List DieSymbol)) : List (List DieSymbol) :=
  List.insertionSort (fun a b => b.length ≤ a.length) l

/-- The keep/drop selection applied to a given ranking (the spec's reading of
the tail of `collect_symbols`, parameterised by the ranking). -/
def specSelect (policy : RollCollectionPolicy) (ranked : List (List DieSymbol)) :
    Option (List DieSymbol) :=
  match policy.coll_type with
  | RollCollectionTypes.CollectAll => some ranked.flatten
  | RollCollectionTypes.TakeHighestN n => some (ranked.take n).flatten
  | RollCollectionTypes.TakeLowestN n =>
    if n ≤ ranked.length then some (ranked.drop (ranked.length - n)).flatten
    else none
  | RollCollectionTypes.RemoveHighestN n => some (ranked.drop n).flatten
  | RollCollectionTypes.RemoveLowestN n =>
    if n ≤ ranked.length then some (ranked.take (ranked.length - n)).flatten
    else none

/-- The ranking the original claim C1 describes: selection applied to the
stable descending sort of the filtered sides. -/
def collect_symbols_specC1 (roll : List DieSide)
    (policy : RollCollectionPolicy) : Option (List DieSymbol) :=
  specSelect policy (specRankStableDesc (filteredSides roll policy))

/-- Guard under which the keep/drop arithmetic of `collect_symbols` cannot
underflow: the two `Lowest` kinds need `n` at most the number of dice. -/
def policyDiceSafe (policy : RollCollectionPolicy) (diceCount : Nat) : Prop :=
  match policy.coll_type with
  | RollCollectionTypes.TakeLowestN n => n ≤ diceCount
  | RollCollectionTypes.RemoveLowestN n => n ≤ diceCount
  | _ => True

/-- Non-strict ranking relation on index-tagged filtered sides: ascending
relevance score, ties broken by ascending original index. -/
def rankLE (p q : List DieSymbol × Nat) : Prop :=
  p.1.length < q.1.length ∨ (p.1.length = q.1.length ∧ p.2 ≤ q.2)

/-- Strict ranking relation describing the order the code actually produces:
descending relevance score, ties in strictly descending original index. -/
def rankGT (p q : List DieSymbol × Nat) : Prop :=
  q.1.length < p.1.length ∨ (p.1.length = q.1.length ∧ q.2 < p.2)

instance : DecidableRel rankLE := fun p q =>
  inferInstanceAs (Decidable (p.1.length < q.1.length ∨
    (p.1.length = q.1.length ∧ p.2 ≤ q.2)))

instance : IsTotal (List DieSymbol × Nat) rankLE :=
  ⟨by
    intro a b
    unfold rankLE
    omega⟩

instance : IsTrans (List DieSymbol × Nat) rankLE :=
  ⟨by
    intro a b c hab hbc
    unfold rankLE at hab hbc ⊢
    omega⟩

/-- Tags each element of a list with its position, starting at `k`. -/
def indexedFrom {α : Type} : Nat → List α → List (α × Nat)
  | _, [] => []
  | k, x :: xs => (x, k) :: indexedFrom (k + 1) xs

/-! ## General fold lemmas -/

theorem foldl_add_eq_sum {β : Type} (f : β → Nat) :
    ∀ (l : List β) (a : Nat), l.foldl (fun c x => c + f x) a = a + (l.map f).sum
  | [], a => by simp
  | x :: l, a => by
    simp only [List.foldl_cons, List.map_cons, List.sum_cons]
    rw [foldl_add_eq_sum f l (a + f x), Nat.add_assoc]

theorem foldl_and_eq_all {β : Type} (f : β → Bool) :
    ∀ (l : List β) (b : Bool), l.foldl (fun c x => c && f x) b = (b && l.all f)
  | [], b => by simp
  | x :: l, b => by
    simp only [List.foldl_cons, List.all_cons]
    rw [foldl_and_eq_all f l (b && f x), Bool.and_assoc]

theorem foldl_if_sum {β : Type} (p : β → Bool) (g : β → Nat) :
    ∀ (l : List β) (a : Nat),
      l.foldl (fun acc e => if p e then acc + g e else acc) a =
        a + ((l.filter p).map g).sum
  | [], a => by simp
  | x :: l, a => by
    rw [List.foldl_cons]
    by_cases hx : p x = true
    · rw [if_pos hx, List.filter_cons_of_pos hx, List.map_cons, List.sum_cons,
        foldl_if_sum p g l (a + g x), Nat.add_assoc]
    · rw [if_neg hx, List.filter_cons_of_neg (by simpa using hx),
        foldl_if_sum p g l a]

theorem sum_map_const {β : Type} (c : Nat) :
    ∀ l : List β, (l.map (fun _ => c)).sum = l.length * c
  | [] => by simp
  | x :: l => by
    simp only [List.map_cons, List.sum_cons, List.length_cons]
    rw [sum_map_const c l, Nat.succ_mul, Nat.add_comm]

/-! ## Lemmas about `get_odds` -/

theorem targetCount_eq_spec (poss : RollResultPossibility) (target : RollTarget) :
    targetCount poss target = specTargetCount poss target := by
  unfold targetCount specTargetCount
  rw [foldl_add_eq_sum, Nat.zero_add]

theorem targetCond_iff (poss : RollResultPossibility) (target : RollTarget) :
    targetCond poss target = true ↔ targetHolds poss target := by
  unfold targetCond targetHolds
  cases target.target_type <;> simp [targetCount_eq_spec]

theorem oddsNumerator_eq_spec (rp : RollProbabilities)
    (targets : List RollTarget) :
    oddsNumerator rp targets = specNumerator rp targets := by
  unfold oddsNumerator specNumerator
  rw [foldl_if_sum, Nat.zero_add]
  congr 1
  apply congrArg
  apply List.filter_congr
  intro e _
  rw [foldl_and_eq_all, Bool.true_and]
  have : (List.all targets (fun t => targetCond e.1 t) = true) ↔
      (decide (∀ t ∈ targets, targetHolds e.1 t) = true) := by
    simp only [List.all_eq_true, decide_eq_true_eq]
    exact forall_congr' (fun t => forall_congr' (fun _ => targetCond_iff e.1 t))
  exact Bool.coe_iff_coe.mp this

theorem new_total_eq {dice : List Die} {policy : RollCollectionPolicy}
    {t : RollProbabilities}
    (h : RollProbabilities.new dice policy = some (Except.ok t)) :
    t.total = sumCounts t.occurrences := by
  unfold RollProbabilities.new at h
  split at h
  · simp at h
  · revert h
    cases hm : collectRolls (cartesianRolls (dice.map Die.sides)) policy with
    | none => intro h; simp at h
    | some cs =>
      intro h
      simp only [Option.some.injEq, Except.ok.injEq] at h
      rw [← h]

theorem oddsNumerator_nil (rp : RollProbabilities) :
    oddsNumerator rp [] = sumCounts rp.occurrences := by
  unfold oddsNumerator sumCounts
  rw [foldl_if_sum, Nat.zero_add]
  simp

instance {ε α : Type} [DecidableEq ε] [DecidableEq α] : DecidableEq (Except ε α)
  | Except.error a, Except.error b =>
    if h : a = b then isTrue (by rw [h])
    else isFalse (fun hh => h (Except.error.inj hh))
  | Except.error _, Except.ok _ => isFalse (fun hh => Except.noConfusion hh)
  | Except.ok _, Except.error _ => isFalse (fun hh => Except.noConfusion hh)
  | Except.ok a, Except.ok b =>
    if h : a = b then isTrue (by rw [h])
    else isFalse (fun hh => h (Except.ok.inj hh))

/-! ## Lemmas about `new` and the occurrence table -/

theorem rankedSides_length (roll : List DieSide) (policy : RollCollectionPolicy) :
    (rankedSides roll policy).length = roll.length := by
  unfold rankedSides filteredSides
  rw [List.length_reverse, (List.perm_insertionSort _ _).length_eq,
    List.length_map]

theorem collect_symbols_isSome (roll : List DieSide)
    (policy : RollCollectionPolicy) (h : policyDiceSafe policy roll.length) :
    ∃ c, collect_symbols roll policy = some c := by
  unfold policyDiceSafe at h
  unfold collect_symbols
  cases hpol : policy.coll_type with
  | CollectAll => exact ⟨_, rfl⟩
  | TakeHighestN n => exact ⟨_, rfl⟩
  | RemoveHighestN n => exact ⟨_, rfl⟩
  | TakeLowestN n =>
    rw [hpol] at h
    dsimp only at h ⊢
    rw [if_pos (by rw [rankedSides_length]; exact h)]
    exact ⟨_, rfl⟩
  | RemoveLowestN n =>
    rw [hpol] at h
    dsimp only at h ⊢
    rw [if_pos (by rw [rankedSides_length]; exact h)]
    exact ⟨_, rfl⟩

theorem collectRolls_some (rolls : List (List DieSide))
    (policy : RollCollectionPolicy)
    (h : ∀ r ∈ rolls, ∃ c, collect_symbols r policy = some c) :
    ∃ cs, collectRolls rolls policy = some cs ∧ cs.length = rolls.length := by
  induction rolls with
  | nil => exact ⟨[], rfl, rfl⟩
  | cons r rs ih =>
    obtain ⟨c, hc⟩ := h r (by simp)
    obtain ⟨cs, hcs, hlen⟩ := ih (fun x hx => h x (by simp [hx]))
    exact ⟨c :: cs, by simp [collectRolls, hc, hcs], by simp [hlen]⟩

theorem cartesianRolls_mem_length {ls : List (List DieSide)}
    {roll : List DieSide} (h : roll ∈ cartesianRolls ls) :
    roll.length = ls.length := by
  induction ls generalizing roll with
  | nil =>
    simp only [cartesianRolls, List.mem_singleton] at h
    simp [h]
  | cons xs rest ih =>
    simp only [cartesianRolls, List.mem_flatMap, List.mem_map] at h
    obtain ⟨x, _, t, ht, rfl⟩ := h
    simp [ih ht]

theorem length_flatMap_general {β γ : Type} (l : List β) (f : β → List γ) :
    (l.flatMap f).length = (l.map (fun x => (f x).length)).sum := by
  induction l with
  | nil => rfl
  | cons x l ih => simp [List.flatMap_cons, ih]

theorem cartesianRolls_length (ls : List (List DieSide)) :
    (cartesianRolls ls).length = (ls.map List.length).prod := by
  induction ls with
  | nil => rfl
  | cons xs rest ih =>
    rw [cartesianRolls, length_flatMap_general]
    simp only [List.length_map]
    rw [sum_map_const, ih, List.map_cons, List.prod_cons]

theorem sumCounts_addRoll (occ : List (RollResultPossibility × Nat))
    (p : RollResultPossibility) :
    sumCounts (addRoll occ p) = sumCounts occ + 1 := by
  induction occ with
  | nil => rfl
  | cons e es ih =>
    by_cases he : e.1 = p
    · simp only [addRoll, if_pos he, sumCounts, List.map_cons, List.sum_cons]
      omega
    · simp only [addRoll, if_neg he, sumCounts, List.map_cons, List.sum_cons]
      have := ih
      unfold sumCounts at this
      omega

theorem sumCounts_foldl (cs : List (List DieSymbol)) :
    ∀ occ, sumCounts (cs.foldl
        (fun occ c => addRoll occ (RollResultPossibility.mkEmpty.add_symbols c))
        occ) =
      sumCounts occ + cs.length := by
  induction cs with
  | nil => simp
  | cons c cs ih =>
    intro occ
    rw [List.foldl_cons, ih, sumCounts_addRoll]
    simp only [List.length_cons]
    omega

/-- A one-entry occurrence table used to instantiate general theorems. -/
def pipTable1 : RollProbabilities :=
  ⟨[(⟨Multiset.ofList [standard.pip]⟩, 1)], 1⟩

/-- The occurrence table `RollProbabilities::new` builds for one standard d4
under collect-all: one outcome key per pip count 1..4, each occurring once. -/
def d4Table : RollProbabilities :=
  ⟨[(⟨Multiset.ofList (List.replicate 1 standard.pip)⟩, 1),
    (⟨Multiset.ofList (List.replicate 2 standard.pip)⟩, 1),
    (⟨Multiset.ofList (List.replicate 3 standard.pip)⟩, 1),
    (⟨Multiset.ofList (List.replicate 4 standard.pip)⟩, 1)], 4⟩

/-- C2: for a non-empty dice pool and a policy whose `n` does not exceed the
number of dice, `new` returns `Ok` with a table whose `total` equals the
product of the per-die side counts and also equals the sum of all occurrence
counts (every joint roll lands in exactly one outcome key). -/
theorem claim_C2 (dice : List Die) (policy : RollCollectionPolicy)
    (hne : dice ≠ []) (hsafe : policyDiceSafe policy dice.length) :
    ∃ t, RollProbabilities.new dice policy = some (Except.ok t) ∧
      t.total = (dice.map (fun d => d.sides.length)).prod ∧
      t.total = sumCounts t.occurrences := by
  have hlen0 : dice.length ≠ 0 :=
    Nat.pos_iff_ne_zero.mp (List.length_pos.mpr hne)
  have hall : ∀ r ∈ cartesianRolls (dice.map Die.sides),
      ∃ c, collect_symbols r policy = some c := by
    intro r hr
    apply collect_symbols_isSome
    have hlen := cartesianRolls_mem_length hr
    rw [List.length_map] at hlen
    rwa [hlen]
  obtain ⟨cs, hcs, hcslen⟩ := collectRolls_some _ policy hall
  refine ⟨⟨cs.foldl
      (fun occ c => addRoll occ (RollResultPossibility.mkEmpty.add_symbols c))
      [],
    sumCounts (cs.foldl
      (fun occ c => addRoll occ (RollResultPossibility.mkEmpty.add_symbols c))
      [])⟩, ?_, ?_, rfl⟩
  · unfold RollProbabilities.new
    rw [if_neg hlen0, hcs]
  · show sumCounts _ = _
    rw [sumCounts_foldl]
    rw [hcslen, cartesianRolls_length, List.map_map]
    simp only [sumCounts, List.map_nil, List.sum_nil, Nat.zero_add]
    rfl

/-- Witness for C2: one standard d4 under collect-all satisfies both
hypotheses, and the conclusion holds there. -/
theorem claim_C2_witness :
    ([standard.d4] : List Die) ≠ [] ∧
    policyDiceSafe (RollCollectionPolicy.collect_all [standard.pip])
      ([standard.d4] : List Die).length ∧
    ∃ t, RollProbabilities.new [standard.d4]
        (RollCollectionPolicy.collect_all [standard.pip]) =
      some (Except.ok t) ∧
      t.total = (([standard.d4] : List Die).map (fun d => d.sides.length)).prod ∧
      t.total = sumCounts t.occurrences :=
  ⟨by simp, trivial,
    claim_C2 [standard.d4] (RollCollectionPolicy.collect_all [standard.pip])
      (by simp) trivial⟩

/-! ## Lemmas about `roll_against` -/

theorem foldl_triple {β : Type} (f : β → Nat × Nat × Nat) :
    ∀ (l : List β) (a : Nat × Nat × Nat),
      l.foldl (fun acc p =>
          (acc.1 + (f p).1, acc.2.1 + (f p).2.1, acc.2.2 + (f p).2.2)) a =
        (a.1 + (l.map (fun p => (f p).1)).sum,
         a.2.1 + (l.map (fun p => (f p).2.1)).sum,
         a.2.2 + (l.map (fun p => (f p).2.2)).sum)
  | [], a => by simp
  | x :: l, a => by
    rw [List.foldl_cons, foldl_triple f l _]
    simp only [List.map_cons, List.sum_cons]
    refine Prod.ext ?_ (Prod.ext ?_ ?_) <;> simp <;> omega

theorem sum_map_pairs {β γ : Type} (A : List β) (B : List γ) (g : β → γ → Nat) :
    ((A.flatMap (fun x => B.map (fun y => (x, y)))).map
        (fun p => g p.1 p.2)).sum =
      (A.map (fun x => (B.map (fun y => g x y)).sum)).sum := by
  induction A with
  | nil => rfl
  | cons x A ih =>
    simp only [List.flatMap_cons, List.map_append, List.sum_append,
      List.map_map, List.map_cons, List.sum_cons]
    rw [← ih]
    rfl

theorem sum_map_add {β : Type} (l : List β) (f g : β → Nat) :
    (l.map (fun x => f x + g x)).sum = (l.map f).sum + (l.map g).sum := by
  induction l with
  | nil => rfl
  | cons x l ih => simp only [List.map_cons, List.sum_cons, ih]; omega

theorem sum_map_mul_left' {γ : Type} (B : List γ) (c : Nat) (g : γ → Nat) :
    (B.map (fun y => c * g y)).sum = c * (B.map g).sum := by
  induction B with
  | nil => simp
  | cons y B ih => simp only [List.map_cons, List.sum_cons, ih, Nat.mul_add]

theorem sum_sum_comm {β γ : Type} (A : List β) (B : List γ) (g : β → γ → Nat) :
    (A.map (fun x => (B.map (fun y => g x y)).sum)).sum =
      (B.map (fun y => (A.map (fun x => g x y)).sum)).sum := by
  induction A with
  | nil =>
    simp only [List.map_nil, List.sum_nil]
    rw [show (B.map (fun _ => ((0 : Nat)))) = B.map (fun y => 0) from rfl,
      sum_map_const]
    simp
  | cons x A ih =>
    simp only [List.map_cons, List.sum_cons, ih]
    rw [← sum_map_add]

theorem sum_map_mul_right' {γ : Type} (B : List γ) (c : Nat) (g : γ → Nat) :
    (B.map (fun y => g y * c)).sum = (B.map g).sum * c := by
  induction B with
  | nil => simp
  | cons y B ih => simp only [List.map_cons, List.sum_cons, ih, Nat.add_mul]

theorem sum_mul_sum' {β γ : Type} (A : List β) (B : List γ)
    (f : β → Nat) (g : γ → Nat) :
    (A.map (fun x => (B.map (fun y => f x * g y)).sum)).sum =
      (A.map f).sum * (B.map g).sum := by
  simp only [sum_map_mul_left']
  exact sum_map_mul_right' A ((B.map g).sum) f

theorem compareStep_win (x y : RollResultPossibility × Nat) :
    (compareStep x y).1 =
      if y.1.total_count < x.1.total_count then x.2 * y.2 else 0 := by
  unfold compareStep
  rcases Nat.lt_trichotomy x.1.total_count y.1.total_count with h | h | h
  · rw [Nat.compare_eq_lt.mpr h, if_neg (by omega)]
  · rw [Nat.compare_eq_eq.mpr h, if_neg (by omega)]
  · rw [Nat.compare_eq_gt.mpr h, if_pos h]

theorem compareStep_tie (x y : RollResultPossibility × Nat) :
    (compareStep x y).2.1 =
      if x.1.total_count = y.1.total_count then x.2 * y.2 else 0 := by
  unfold compareStep
  rcases Nat.lt_trichotomy x.1.total_count y.1.total_count with h | h | h
  · rw [Nat.compare_eq_lt.mpr h, if_neg (by omega)]
  · rw [Nat.compare_eq_eq.mpr h, if_pos h]
  · rw [Nat.compare_eq_gt.mpr h, if_neg (by omega)]

theorem compareStep_loss (x y : RollResultPossibility × Nat) :
    (compareStep x y).2.2 =
      if x.1.total_count < y.1.total_count then x.2 * y.2 else 0 := by
  unfold compareStep
  rcases Nat.lt_trichotomy x.1.total_count y.1.total_count with h | h | h
  · rw [Nat.compare_eq_lt.mpr h, if_pos h]
  · rw [Nat.compare_eq_eq.mpr h, if_neg (by omega)]
  · rw [Nat.compare_eq_gt.mpr h, if_neg (by omega)]

theorem roll_against_fields (a b : RollProbabilities) :
    (a.roll_against b).wins =
        (a.occurrences.map (fun x =>
          (b.occurrences.map (fun y => (compareStep x y).1)).sum)).sum ∧
    (a.roll_against b).ties =
        (a.occurrences.map (fun x =>
          (b.occurrences.map (fun y => (compareStep x y).2.1)).sum)).sum ∧
    (a.roll_against b).losses =
        (a.occurrences.map (fun x =>
          (b.occurrences.map (fun y => (compareStep x y).2.2)).sum)).sum ∧
    (a.roll_against b).total =
        (a.roll_against b).wins + (a.roll_against b).ties +
          (a.roll_against b).losses := by
  simp only [RollProbabilities.roll_against]
  rw [foldl_triple (fun p => compareStep p.1 p.2)
    (a.occurrences.flatMap fun x => List.map (fun y => (x, y)) b.occurrences)
    (0, 0, 0)]
  simp only [RollCompareResult.mk']
  refine ⟨?_, ?_, ?_, trivial⟩
  · rw [Nat.zero_add]
    exact sum_map_pairs a.occurrences b.occurrences
      (fun x y => (compareStep x y).1)
  · rw [Nat.zero_add]
    exact sum_map_pairs a.occurrences b.occurrences
      (fun x y => (compareStep x y).2.1)
  · rw [Nat.zero_add]
    exact sum_map_pairs a.occurrences b.occurrences
      (fun x y => (compareStep x y).2.2)

/-! ## Lemmas about `ItemCounter` -/

/-- The wrapped map's keys are pairwise distinct (a `HashMap` invariant). -/
def ItemCounter.KeysNodup {T : Type} (c : ItemCounter T) : Prop :=
  (c.items.map (fun e => e.1)).Nodup

/-- Every stored count is positive. -/
def ItemCounter.ValuesPos {T : Type} (c : ItemCounter T) : Prop :=
  ∀ e ∈ c.items, 0 < e.2

theorem add_amount_keys {T : Type} [DecidableEq T] (c : ItemCounter T)
    (item : T) (amount : Nat) (h : c.KeysNodup) :
    (c.add_amount item amount).KeysNodup := by
  unfold ItemCounter.add_amount
  by_cases hmem : c.items.any (fun e => e.1 = item)
  · rw [if_pos hmem]
    unfold ItemCounter.KeysNodup at h ⊢
    simp only [List.map_map]
    have : ((fun e => e.1) ∘ fun e : T × Nat =>
        if e.1 = item then (e.1, e.2 + amount) else e) = fun e => e.1 := by
      funext e
      by_cases he : e.1 = item <;> simp [he]
    rwa [this]
  · rw [if_neg hmem]
    unfold ItemCounter.KeysNodup at h ⊢
    rw [List.map_append]
    simp only [List.any_eq_true, decide_eq_true_eq, not_exists, not_and] at hmem
    simp only [List.nodup_append, List.map_cons, List.map_nil]
    refine ⟨h, List.nodup_singleton item, ?_⟩
    intro k hk
    simp only [List.mem_map] at hk
    obtain ⟨e, he, rfl⟩ := hk
    simp only [List.mem_singleton]
    exact fun hcontra => hmem e he hcontra

theorem add_amount_values {T : Type} [DecidableEq T] (c : ItemCounter T)
    (item : T) (amount : Nat) (hpos : 0 < amount) (h : c.ValuesPos) :
    (c.add_amount item amount).ValuesPos := by
  unfold ItemCounter.add_amount
  by_cases hmem : c.items.any (fun e => e.1 = item)
  · rw [if_pos hmem]
    intro e he
    simp only [List.mem_map] at he
    obtain ⟨f, hf, rfl⟩ := he
    by_cases hfi : f.1 = item
    · simp only [if_pos hfi]
      have := h f hf
      omega
    · simp only [if_neg hfi]
      exact h f hf
  · rw [if_neg hmem]
    intro e he
    rcases List.mem_append.mp he with he | he
    · exact h e he
    · simp only [List.mem_singleton] at he
      rw [he]
      exact hpos

theorem ofOps_keys_nodup {T : Type} [DecidableEq T] (ops : List (T × Nat)) :
    (ItemCounter.ofOps ops).KeysNodup := by
  unfold ItemCounter.ofOps
  have aux : ∀ (l : List (T × Nat)) (c : ItemCounter T), c.KeysNodup →
      (l.foldl (fun c op => c.add_amount op.1 op.2) c).KeysNodup := by
    intro l
    induction l with
    | nil => intro c hc; exact hc
    | cons op l ih =>
      intro c hc
      exact ih _ (add_amount_keys c op.1 op.2 hc)
  exact aux ops (ItemCounter.new T) List.nodup_nil

theorem ofOps_values_pos {T : Type} [DecidableEq T] (ops : List (T × Nat))
    (h : ∀ op ∈ ops, 0 < op.2) : (ItemCounter.ofOps ops).ValuesPos := by
  unfold ItemCounter.ofOps
  have aux : ∀ (l : List (T × Nat)) (c : ItemCounter T),
      (∀ op ∈ l, 0 < op.2) → c.ValuesPos →
      (l.foldl (fun c op => c.add_amount op.1 op.2) c).ValuesPos := by
    intro l
    induction l with
    | nil => intro c _ hc; exact hc
    | cons op l ih =>
      intro c hl hc
      exact ih _ (fun x hx => hl x (by simp [hx]))
        (add_amount_values c op.1 op.2 (hl op (by simp)) hc)
  exact aux ops (ItemCounter.new T) h (by intro e he; cases he)

theorem get_count_eq_lookup {T : Type} [DecidableEq T] (c : ItemCounter T)
    (t : T) : c.get_count t = (c.lookup t).getD 0 := by
  unfold ItemCounter.get_count ItemCounter.lookup
  cases c.items.find? (fun e => e.1 = t) <;> rfl

theorem find_map_mem {T : Type} [DecidableEq T] :
    ∀ items : List (T × Nat), (items.map (fun e => e.1)).Nodup →
      ∀ {e : T × Nat}, e ∈ items →
        (items.find? (fun f => f.1 = e.1)).map (fun f => f.2) = some e.2
  | [], _, _, he => absurd he (List.not_mem_nil _)
  | f :: fs, hnd, e, he => by
    rcases List.mem_cons.mp he with rfl | he'
    · rw [List.find?_cons_of_pos _ (by simp)]
      rfl
    · have hne : ¬ (f.1 = e.1) := by
        intro hcontra
        simp only [List.map_cons, List.nodup_cons] at hnd
        exact hnd.1 (hcontra ▸ List.mem_map_of_mem (fun x => x.1) he')
      rw [List.find?_cons_of_neg _ (by simpa using hne)]
      exact find_map_mem fs
        (by simpa [List.nodup_cons] using List.Nodup.of_cons (by simpa using hnd))
        he'

theorem lookup_mem {T : Type} [DecidableEq T] (c : ItemCounter T)
    (hnd : c.KeysNodup) {e : T × Nat} (he : e ∈ c.items) :
    c.lookup e.1 = some e.2 :=
  find_map_mem c.items hnd he

theorem lookup_isSome_iff_mem_keys {T : Type} [DecidableEq T]
    (c : ItemCounter T) (t : T) :
    (c.lookup t).isSome ↔ t ∈ c.items.map (fun e => e.1) := by
  unfold ItemCounter.lookup
  constructor
  · intro h
    cases hf : c.items.find? (fun e => e.1 = t) with
    | none => rw [hf] at h; simp at h
    | some e =>
      have hp := List.find?_some hf
      have hmem := List.mem_of_find?_eq_some hf
      simp only [decide_eq_true_eq] at hp
      exact hp ▸ List.mem_map_of_mem (fun e => e.1) hmem
  · intro h
    simp only [List.mem_map] at h
    obtain ⟨e, he, rfl⟩ := h
    cases hf : c.items.find? (fun f => f.1 = e.1) with
    | none =>
      rw [List.find?_eq_none] at hf
      have := hf e he
      simp at this
    | some f => rfl

theorem lookup_pos {T : Type} [DecidableEq T] (c : ItemCounter T)
    (hv : c.ValuesPos) (t : T) (v : Nat) (h : c.lookup t = some v) : 0 < v := by
  unfold ItemCounter.lookup at h
  cases hf : c.items.find? (fun e => e.1 = t) with
  | none => rw [hf] at h; cases h
  | some e =>
    rw [hf] at h
    have h2 : e.2 = v := by simpa using h
    rw [← h2]
    exact hv e (List.mem_of_find?_eq_some hf)

/-! ## Lemmas about the Cartesian product enumerator -/

/-- Index tuple within bounds, position by position. -/
def validIdx (idxs dims : List Nat) : Prop :=
  List.Forall₂ (fun i m => i < m) idxs dims

/-- The index tuples remaining (current one included) when the odometer over
`dims` stands at `idxs`: digit 0 finishes its range with the tail fixed, then
every later tail tuple is paired with digit 0's full range. -/
def odoFrom : List Nat → List Nat → List (List Nat)
  | [], _ => [[]]
  | _ :: _, [] => []
  | i :: is, m :: ms =>
    match odoFrom is ms with
    | [] => []
    | t :: rest =>
      (List.range' i (m - i)).map (fun d => d :: t) ++
        rest.flatMap (fun t2 => (List.range m).map (fun d => d :: t2))

theorem odoFrom_head : ∀ {idxs dims : List Nat}, validIdx idxs dims →
    ∃ rest, odoFrom idxs dims = idxs :: rest := by
  intro idxs dims hv
  induction hv with
  | nil => exact ⟨[], rfl⟩
  | cons him htail ih =>
    rename_i i m is ms
    obtain ⟨rest, hrest⟩ := ih
    simp only [odoFrom, hrest]
    rw [show m - i = (m - (i + 1)) + 1 from by omega, List.range'_succ,
      List.map_cons, List.cons_append]
    exact ⟨_, rfl⟩

theorem validIdx_dims_pos : ∀ {idxs dims : List Nat}, validIdx idxs dims →
    ∀ m ∈ dims, 0 < m := by
  intro idxs dims hv
  induction hv with
  | nil => intro m hm; cases hm
  | cons him htail ih =>
    intro m hm
    rcases List.mem_cons.mp hm with rfl | hm'
    · omega
    · exact ih m hm'

theorem incrementStep : ∀ {idxs dims : List Nat}, validIdx idxs dims →
    ∃ idxs2 carry, incrementList idxs dims = some (idxs2, carry) ∧
      (carry = true → odoFrom idxs dims = [idxs]) ∧
      (carry = false → validIdx idxs2 dims ∧
        odoFrom idxs dims = idxs :: odoFrom idxs2 dims) := by
  intro idxs dims hv
  induction hv with
  | nil =>
    refine ⟨[], true, rfl, fun _ => rfl, ?_⟩
    intro hc
    cases hc
  | cons him htail ih =>
    rename_i i m is ms
    have hm0 : ¬ (m = 0) := by omega
    by_cases hlt : i + 1 < m
    · have hmod : (i + 1) % m = i + 1 := Nat.mod_eq_of_lt hlt
      refine ⟨(i + 1) :: is, false, ?_, ?_, ?_⟩
      · simp only [incrementList, if_neg hm0, hmod, if_neg (by omega : ¬ (i + 1 = 0))]
      · intro hc
        cases hc
      · intro _
        refine ⟨List.Forall₂.cons hlt htail, ?_⟩
        obtain ⟨rest, hrest⟩ := odoFrom_head htail
        simp only [odoFrom, hrest]
        rw [show m - i = (m - (i + 1)) + 1 from by omega, List.range'_succ,
          List.map_cons, List.cons_append]
    · have heq : i + 1 = m := by omega
      have hmod : (i + 1) % m = 0 := by rw [heq, Nat.mod_self]
      obtain ⟨js, c, hinc, hcT, hcF⟩ := ih
      refine ⟨0 :: js, c, ?_, ?_, ?_⟩
      · simp only [incrementList, if_neg hm0, hmod, if_pos rfl, hinc,
          Option.map_some]
        simp
      · intro hc
        have hT := hcT hc
        simp only [odoFrom, hT]
        rw [show m - i = 1 from by omega]
        rfl
      · intro hc
        obtain ⟨hvjs, hF⟩ := hcF hc
        refine ⟨List.Forall₂.cons (by omega) hvjs, ?_⟩
        obtain ⟨rest2, hrest2⟩ := odoFrom_head hvjs
        simp only [odoFrom, hF, hrest2]
        rw [show m - i = 1 from by omega]
        rw [show m - 0 = m from rfl, ← List.range_eq_range']
        show ([i].map (fun d => d :: is)) ++
            (js :: rest2).flatMap (fun t2 =>
              (List.range m).map (fun d => d :: t2)) = _
        rw [List.flatMap_cons]
        rfl

theorem selectAt_isSome {α : Type} : ∀ (sets : List (List α)) (idxs : List Nat),
    validIdx idxs (sets.map List.length) →
    ∃ v, selectAt sets idxs = some v := by
  intro sets
  induction sets with
  | nil =>
    intro idxs hv
    cases hv
    exact ⟨[], rfl⟩
  | cons xs rest ih =>
    intro idxs hv
    rw [List.map_cons] at hv
    cases hv with
    | cons him htail =>
      rename_i i is
      obtain ⟨t, ht⟩ := ih is htail
      refine ⟨xs[i] :: t, ?_⟩
      simp only [selectAt, List.getElem?_eq_getElem him, ht]

theorem simRun {α : Type} (sets : List (List α)) :
    ∀ (n : Nat) (idxs : List Nat), validIdx idxs (sets.map List.length) →
      (odoFrom idxs (sets.map List.length)).length = n →
      ∃ out,
        runFuel (n + 1)
          (⟨sets, sets.map List.length, idxs, false⟩ :
            MultiCartesianProduct α) = some out ∧
        out.map some = (odoFrom idxs (sets.map List.length)).map
          (selectAt sets) := by
  intro n
  induction n with
  | zero =>
    intro idxs hv hlen
    obtain ⟨rest, hrest⟩ := odoFrom_head hv
    rw [hrest] at hlen
    cases hlen
  | succ n ih =>
    intro idxs hv hlen
    obtain ⟨v, hsel⟩ := selectAt_isSome sets idxs hv
    obtain ⟨idxs2, carry, hinc, hcT, hcF⟩ := incrementStep hv
    have hnext : MultiCartesianProduct.next
        (⟨sets, sets.map List.length, idxs, false⟩ :
          MultiCartesianProduct α) =
        some (some v, ⟨sets, sets.map List.length, idxs2, carry⟩) := by
      simp only [MultiCartesianProduct.next, hsel, hinc]
      rfl
    cases carry with
    | true =>
      have hT := hcT rfl
      rw [hT] at hlen
      have hn0 : n = 0 := by simpa using hlen
      subst hn0
      refine ⟨[v], ?_, ?_⟩
      · show runFuel 2 _ = _
        rw [show (2 : Nat) = 1 + 1 from rfl]
        simp only [runFuel, hnext]
        rfl
      · rw [hT]
        simp [hsel]
    | false =>
      obtain ⟨hv2, hF⟩ := hcF rfl
      rw [hF] at hlen
      have hlen2 : (odoFrom idxs2 (sets.map List.length)).length = n := by
        simpa using hlen
      obtain ⟨out2, hrun2, hmap2⟩ := ih idxs2 hv2 hlen2
      refine ⟨v :: out2, ?_, ?_⟩
      · show runFuel (n + 1 + 1) _ = _
        rw [runFuel, hnext]
        show (runFuel (n + 1) _).map (fun out => v :: out) = _
        rw [hrun2]
        rfl
      · rw [hF]
        simp only [List.map_cons, hmap2, hsel]

theorem odometer_length {α : Type} :
    ∀ ls : List (List α), (odometer ls).length = (ls.map List.length).prod := by
  intro ls
  induction ls with
  | nil => rfl
  | cons xs rest ih =>
    simp only [odometer, length_flatMap_general, List.length_map,
      List.map_cons, List.prod_cons]
    rw [sum_map_const, ih, Nat.mul_comm]

theorem odoIdx_cons (m : Nat) (ms : List Nat) :
    odoIdx (m :: ms) =
      (odoIdx ms).flatMap (fun t => (List.range m).map (fun d => d :: t)) :=
  rfl

theorem odoIdx_length (dims : List Nat) : (odoIdx dims).length = dims.prod := by
  unfold odoIdx
  rw [odometer_length, List.map_map]
  rw [show (List.length ∘ List.range) = (id : Nat → Nat) from
    funext (fun m => by simp)]
  rw [List.map_id]

theorem odoIdx_ne_nil {dims : List Nat} (h : ∀ m ∈ dims, 0 < m) :
    odoIdx dims ≠ [] := by
  intro hcontra
  have := odoIdx_length dims
  rw [hcontra] at this
  have hpos : 0 < dims.prod := List.prod_pos h
  simp only [List.length_nil] at this
  omega

theorem validIdx_zero {dims : List Nat} (h : ∀ m ∈ dims, 0 < m) :
    validIdx (dims.map (fun _ => 0)) dims := by
  induction dims with
  | nil => exact List.Forall₂.nil
  | cons m ms ih =>
    exact List.Forall₂.cons (h m (by simp))
      (ih (fun x hx => h x (by simp [hx])))

theorem odoFrom_zero :
    ∀ dims : List Nat, (∀ m ∈ dims, 0 < m) →
      odoFrom (dims.map (fun _ => 0)) dims = odoIdx dims := by
  intro dims
  induction dims with
  | nil => intro _; rfl
  | cons m ms ih =>
    intro h
    have hrec := ih (fun x hx => h x (by simp [hx]))
    simp only [List.map_cons, odoFrom, hrec]
    cases hne : odoIdx ms with
    | nil => exact absurd hne (odoIdx_ne_nil (fun x hx => h x (by simp [hx])))
    | cons t rest =>
      rw [show m - 0 = m from rfl, ← List.range_eq_range', odoIdx_cons, hne,
        List.flatMap_cons]

theorem map_getElem?_range {α : Type} :
    ∀ xs : List α, (List.range xs.length).map (fun i => xs[i]?) = xs.map some
  | [] => rfl
  | x :: xs => by
    rw [List.length_cons, List.range_succ_eq_map, List.map_cons, List.map_cons,
      List.map_map,
      show ((fun i => (x :: xs)[i]?) ∘ Nat.succ) = fun i => xs[i]? from
        funext (fun i => List.getElem?_cons_succ),
      map_getElem?_range xs]
    rw [List.getElem?_cons_zero]

theorem mapSelect {α : Type} :
    ∀ sets : List (List α),
      (odoIdx (sets.map List.length)).map (selectAt sets) =
        (odometer sets).map some := by
  intro sets
  induction sets with
  | nil => rfl
  | cons xs rest ih =>
    rw [List.map_cons, odoIdx_cons, List.map_flatMap]
    have hinner : ∀ it,
        (List.map (selectAt (xs :: rest))
          ((List.range xs.length).map (fun d => d :: it))) =
        (match selectAt rest it with
          | some t => xs.map (fun x => some (x :: t))
          | none => (List.range xs.length).map (fun _ => none)) := by
      intro it
      rw [List.map_map]
      cases hsel : selectAt rest it with
      | some t =>
        have : (selectAt (xs :: rest) ∘ fun d => d :: it) =
            fun i => (xs[i]?).map (fun v => v :: t) := by
          funext i
          show selectAt (xs :: rest) (i :: it) = _
          simp only [selectAt, hsel]
          cases xs[i]? <;> rfl
        rw [this,
          show (fun i => (xs[i]?).map (fun v => v :: t)) =
            ((Option.map (fun v => v :: t)) ∘ fun i => xs[i]?) from rfl,
          ← List.map_map, map_getElem?_range, List.map_map]
        rfl
      | none =>
        have : (selectAt (xs :: rest) ∘ fun d => d :: it) =
            fun _ => (none : Option (List α)) := by
          funext i
          show selectAt (xs :: rest) (i :: it) = _
          simp only [selectAt, hsel]
          cases xs[i]? <;> rfl
        rw [this]
    calc (odoIdx (rest.map List.length)).flatMap
          (fun it => List.map (selectAt (xs :: rest))
            ((List.range xs.length).map (fun d => d :: it)))
        = (odoIdx (rest.map List.length)).flatMap
            (fun it => match selectAt rest it with
              | some t => xs.map (fun x => some (x :: t))
              | none => (List.range xs.length).map (fun _ => none)) := by
          exact congrArg _ (funext hinner)
      _ = ((odoIdx (rest.map List.length)).map (selectAt rest)).flatMap
            (fun o => match o with
              | some t => xs.map (fun x => some (x :: t))
              | none => (List.range xs.length).map (fun _ => none)) := by
          rw [List.flatMap_map]
      _ = ((odometer rest).map some).flatMap
            (fun o => match o with
              | some t => xs.map (fun x => some (x :: t))
              | none => (List.range xs.length).map (fun _ => none)) := by
          rw [ih]
      _ = (odometer rest).flatMap (fun t => xs.map (fun x => some (x :: t))) := by
          rw [List.flatMap_map]
      _ = (odometer (xs :: rest)).map some := by
          show _ = ((odometer rest).flatMap
            (fun t => xs.map (fun x => x :: t))).map some
          rw [List.map_flatMap]
          exact congrArg _ (funext (fun t => by rw [List.map_map]; rfl))

theorem odoIdx_nodup : ∀ dims : List Nat, (odoIdx dims).Nodup := by
  intro dims
  induction dims with
  | nil => exact List.nodup_singleton []
  | cons m ms ih =>
    rw [odoIdx_cons]
    rw [List.nodup_flatMap]
    refine ⟨?_, ?_⟩
    · intro it _
      exact (List.nodup_range _).map
        (fun a b hab => by injection hab)
    · refine ih.imp ?_
      intro it1 it2 hne
      intro z hz1 hz2
      simp only [List.mem_map] at hz1 hz2
      obtain ⟨d1, _, rfl⟩ := hz1
      obtain ⟨d2, _, heq2⟩ := hz2
      injection heq2 with h1 h2
      exact hne (h2 ▸ rfl)

theorem odoIdx_mem :
    ∀ (dims : List Nat) (ix : List Nat),
      ix ∈ odoIdx dims ↔ validIdx ix dims := by
  intro dims
  induction dims with
  | nil =>
    intro ix
    show ix ∈ [[]] ↔ _
    rw [List.mem_singleton]
    constructor
    · rintro rfl
      exact List.Forall₂.nil
    · intro hv
      cases hv
      rfl
  | cons m ms ih =>
    intro ix
    rw [odoIdx_cons, List.mem_flatMap]
    constructor
    · rintro ⟨it, hit, hmem⟩
      simp only [List.mem_map, List.mem_range] at hmem
      obtain ⟨d, hd, rfl⟩ := hmem
      exact List.Forall₂.cons hd ((ih it).mp hit)
    · intro hv
      cases hv with
      | cons hd htail =>
        rename_i d ds
        exact ⟨ds, (ih ds).mpr htail,
          by simp only [List.mem_map, List.mem_range]; exact ⟨d, hd, rfl⟩⟩

/-! ## Lemmas about the ranking of `collect_symbols` -/

theorem indexedFrom_ge {α : Type} :
    ∀ (k : Nat) (l : List α), ∀ p ∈ indexedFrom k l, k ≤ p.2
  | _, [], _, hp => absurd hp (List.not_mem_nil _)
  | k, x :: xs, p, hp => by
    rcases List.mem_cons.mp hp with rfl | hp'
    · exact Nat.le_refl k
    · exact Nat.le_of_succ_le (indexedFrom_ge (k + 1) xs p hp')

theorem indexedFrom_map_fst {α : Type} :
    ∀ (k : Nat) (l : List α), (indexedFrom k l).map Prod.fst = l
  | _, [] => rfl
  | k, x :: xs => by
    simp only [indexedFrom, List.map_cons, List.cons.injEq]
    exact ⟨trivial, indexedFrom_map_fst (k + 1) xs⟩

theorem indexedFrom_map_snd {α : Type} :
    ∀ (k : Nat) (l : List α),
      (indexedFrom k l).map Prod.snd = List.range' k l.length
  | _, [] => rfl
  | k, x :: xs => by
    simp only [indexedFrom, List.map_cons, List.length_cons, List.range'_succ,
      List.cons.injEq]
    exact ⟨trivial, indexedFrom_map_snd (k + 1) xs⟩

theorem orderedInsert_indexed (x : List DieSymbol) (k : Nat) :
    ∀ m : List (List DieSymbol × Nat), (∀ p ∈ m, k < p.2) →
      List.orderedInsert (fun a b => a.length ≤ b.length) x
          (m.map Prod.fst) =
        (List.orderedInsert rankLE (x, k) m).map Prod.fst
  | [], _ => rfl
  | (b, j) :: m', hm => by
    have hkj : k < j := hm (b, j) (by simp)
    by_cases h : x.length ≤ b.length
    · have hrank : rankLE (x, k) (b, j) := by
        unfold rankLE
        simp only
        omega
      simp only [List.map_cons, List.orderedInsert, if_pos h, if_pos hrank,
        List.map_cons]
    · have hrank : ¬ rankLE (x, k) (b, j) := by
        unfold rankLE
        simp only
        omega
      simp only [List.map_cons, List.orderedInsert, if_neg h, if_neg hrank,
        List.map_cons, List.cons.injEq]
      exact ⟨trivial,
        orderedInsert_indexed x k m' (fun p hp => hm p (by simp [hp]))⟩

theorem insertionSort_indexed :
    ∀ (l : List (List DieSymbol)) (k : Nat),
      List.insertionSort (fun a b => a.length ≤ b.length) l =
        (List.insertionSort rankLE (indexedFrom k l)).map Prod.fst
  | [], _ => rfl
  | x :: xs, k => by
    show List.orderedInsert _ x
        (List.insertionSort (fun a b => a.length ≤ b.length) xs) =
      (List.orderedInsert rankLE (x, k)
        (List.insertionSort rankLE (indexedFrom (k + 1) xs))).map Prod.fst
    rw [insertionSort_indexed xs (k + 1)]
    exact orderedInsert_indexed x k _
      (fun p hp => Nat.lt_of_succ_le (indexedFrom_ge (k + 1) xs p
        ((List.perm_insertionSort rankLE (indexedFrom (k + 1) xs)).mem_iff.mp
          hp)))

theorem collect_symbols_eq_specSelect (roll : List DieSide)
    (policy : RollCollectionPolicy) :
    collect_symbols roll policy =
      specSelect policy (rankedSides roll policy) := by
  rcases policy with ⟨ct, syms⟩
  cases ct <;> rfl

theorem keys_perm_of_lookup_eq {T : Type} [DecidableEq T]
    {A B : ItemCounter T} (hndA : A.KeysNodup) (hndB : B.KeysNodup)
    (hl : ∀ t, A.lookup t = B.lookup t) :
    (A.items.map (fun e => e.1)).Perm (B.items.map (fun e => e.1)) := by
  rw [List.perm_ext_iff_of_nodup hndA hndB]
  intro t
  rw [← lookup_isSome_iff_mem_keys, ← lookup_isSome_iff_mem_keys, hl t]

theorem rustEq_iff_lookup_eq {T : Type} [DecidableEq T]
    {A B : ItemCounter T} (hndA : A.KeysNodup) (hndB : B.KeysNodup) :
    A.rustEq B ↔ ∀ t, A.lookup t = B.lookup t := by
  constructor
  · rintro ⟨hlen, hall⟩
    have hsub : ∀ t, t ∈ A.items.map (fun e => e.1) →
        t ∈ B.items.map (fun e => e.1) := by
      intro t ht
      simp only [List.mem_map] at ht
      obtain ⟨e, he, rfl⟩ := ht
      have hs : (B.lookup e.1).isSome = true := by rw [hall e he]; rfl
      exact (lookup_isSome_iff_mem_keys B e.1).mp hs
    have hkeyseq : ∀ t, t ∈ A.items.map (fun e => e.1) ↔
        t ∈ B.items.map (fun e => e.1) := by
      intro t
      refine ⟨hsub t, fun ht => ?_⟩
      have hfinsub : (A.items.map (fun e => e.1)).toFinset ⊆
          (B.items.map (fun e => e.1)).toFinset := by
        intro x hx
        rw [List.mem_toFinset] at hx ⊢
        exact hsub x hx
      have hcard : (B.items.map (fun e => e.1)).toFinset.card ≤
          (A.items.map (fun e => e.1)).toFinset.card := by
        rw [List.toFinset_card_of_nodup hndA, List.toFinset_card_of_nodup hndB,
          List.length_map, List.length_map]
        omega
      have heq := Finset.eq_of_subset_of_card_le hfinsub hcard
      rw [← List.mem_toFinset, ← heq, List.mem_toFinset] at ht
      exact ht
    intro t
    cases hA : A.lookup t with
    | some v =>
      have hs : (A.lookup t).isSome = true := by rw [hA]; rfl
      have ht := (lookup_isSome_iff_mem_keys A t).mp hs
      simp only [List.mem_map] at ht
      obtain ⟨e, he, rfl⟩ := ht
      have hv := lookup_mem A hndA he
      rw [hA] at hv
      rw [hall e he, ← hv]
    | none =>
      cases hB : B.lookup t with
      | none => rfl
      | some w =>
        have hs : (B.lookup t).isSome = true := by rw [hB]; rfl
        have ht := (hkeyseq t).mpr ((lookup_isSome_iff_mem_keys B t).mp hs)
        have := (lookup_isSome_iff_mem_keys A t).mpr ht
        rw [hA] at this
        cases this
  · intro hl
    constructor
    · have hperm := keys_perm_of_lookup_eq hndA hndB hl
      have := hperm.length_eq
      simpa using this
    · intro e he
      rw [← hl e.1]
      exact lookup_mem A hndA he

theorem counts_eq_iff_lookup_eq {T : Type} [DecidableEq T]
    {A B : ItemCounter T} (hvA : A.ValuesPos) (hvB : B.ValuesPos) :
    (∀ t, A.get_count t = B.get_count t) ↔
      (∀ t, A.lookup t = B.lookup t) := by
  constructor
  · intro hc t
    have hct := hc t
    rw [get_count_eq_lookup, get_count_eq_lookup] at hct
    cases hA : A.lookup t with
    | none =>
      cases hB : B.lookup t with
      | none => rfl
      | some w =>
        rw [hA, hB] at hct
        simp only [Option.getD_none, Option.getD_some] at hct
        have := lookup_pos B hvB t w hB
        omega
    | some v =>
      cases hB : B.lookup t with
      | none =>
        rw [hA, hB] at hct
        simp only [Option.getD_none, Option.getD_some] at hct
        have := lookup_pos A hvA t v hA
        omega
      | some w =>
        rw [hA, hB] at hct
        simp only [Option.getD_some] at hct
        rw [hct]
  · intro hl t
    rw [get_count_eq_lookup, get_count_eq_lookup, hl t]

theorem hashSeq_eq_of_lookup_eq {T : Type} [DecidableEq T] [LinearOrder T]
    {A B : ItemCounter T} (hndA : A.KeysNodup) (hndB : B.KeysNodup)
    (hl : ∀ t, A.lookup t = B.lookup t) : A.hashSeq = B.hashSeq := by
  unfold ItemCounter.hashSeq
  have hperm := keys_perm_of_lookup_eq hndA hndB hl
  have hsorted : List.insertionSort (· ≤ ·) (A.items.map (fun e => e.1)) =
      List.insertionSort (· ≤ ·) (B.items.map (fun e => e.1)) := by
    exact List.eq_of_perm_of_sorted
      ((List.perm_insertionSort _ _).trans
        (hperm.trans (List.perm_insertionSort _ _).symm))
      (List.sorted_insertionSort _ _) (List.sorted_insertionSort _ _)
  rw [hsorted]
  have hcount : (fun k => List.replicate (A.get_count k) k) =
      (fun k => List.replicate (B.get_count k) k) := by
    funext k
    rw [get_count_eq_lookup, get_count_eq_lookup, hl k]
  rw [hcount]

theorem compareStep_sum (x y : RollResultPossibility × Nat) :
    (compareStep x y).1 + (compareStep x y).2.1 + (compareStep x y).2.2 =
      x.2 * y.2 := by
  rw [compareStep_win, compareStep_tie, compareStep_loss]
  rcases Nat.lt_trichotomy x.1.total_count y.1.total_count with h | h | h
  · rw [if_neg (by omega), if_neg (by omega), if_pos h]; omega
  · rw [if_neg (by omega), if_pos h, if_neg (by omega)]; omega
  · rw [if_pos h, if_neg (by omega), if_neg (by omega)]; omega

theorem roll_against_total_sq (a : RollProbabilities) :
    (a.roll_against a).total =
      sumCounts a.occurrences * sumCounts a.occurrences := by
  obtain ⟨hw, ht, hl, htot⟩ := roll_against_fields a a
  rw [htot, hw, ht, hl, ← sum_map_add, ← sum_map_add]
  simp only [← sum_map_add, compareStep_sum]
  exact sum_mul_sum' a.occurrences a.occurrences (fun e => e.2) (fun e => e.2)

/-- C8: comparing a table against itself gives equal win and loss odds, and
the tie odds are exactly the probability that two independent draws (each
outcome-key pair weighted by the product of the two occurrence counts)
produce equal scalar value (unfiltered total symbol count of the key). -/
theorem claim_C8 (a : RollProbabilities) :
    (a.roll_against a).win_odds = (a.roll_against a).loss_odds ∧
    (a.roll_against a).tie_odds = specTieProb a := by
  obtain ⟨hw, ht, hl, _⟩ := roll_against_fields a a
  have hsq := roll_against_total_sq a
  have hwl : (a.roll_against a).wins = (a.roll_against a).losses := by
    rw [hw, hl,
      sum_sum_comm a.occurrences a.occurrences
        (fun x y => (compareStep x y).2.2)]
    simp only [compareStep_win, compareStep_loss]
    simp [Nat.mul_comm]
  have hties : (a.roll_against a).ties = equalValueWeight a := by
    rw [ht]
    unfold equalValueWeight scalarValue
    simp only [compareStep_tie]
  constructor
  · simp only [RollCompareResult.win_odds, RollCompareResult.loss_odds, hwl]
  · by_cases hz : sumCounts a.occurrences = 0
    · have h0 : (a.roll_against a).total = 0 := by
        rw [hsq, hz, Nat.mul_zero]
      rw [RollCompareResult.tie_odds, if_pos h0, specTieProb, hz]
      simp
    · have htotne : (a.roll_against a).total ≠ 0 := by
        rw [hsq]; exact Nat.mul_ne_zero hz hz
      rw [RollCompareResult.tie_odds, if_neg htotne, specTieProb, hties, hsq]
      congr 1
      push_cast
      ring

/-- C3: `get_odds` returns 0 for a zero-total table, and otherwise divides,
in one final exact division, the integer sum of the occurrence counts of the
outcome keys on which every listed target holds (summing the key's counts
over the target's symbols and comparing per the target kind) by the total. -/
theorem claim_C3 (rp : RollProbabilities) (targets : List RollTarget) :
    (rp.total = 0 → rp.get_odds targets = 0) ∧
    (rp.total ≠ 0 →
      rp.get_odds targets = (specNumerator rp targets : ℚ) / (rp.total : ℚ)) := by
  constructor
  · intro h
    simp [RollProbabilities.get_odds, h]
  · intro h
    simp [RollProbabilities.get_odds, h, oddsNumerator_eq_spec]

/-- Witness for C3: on a concrete one-entry table with no targets, the
hypothesis of the nonzero branch holds and the division form is reached. -/
theorem claim_C3_witness :
    pipTable1.total ≠ 0 ∧
      pipTable1.get_odds [] =
        (specNumerator pipTable1 [] : ℚ) / (pipTable1.total : ℚ) :=
  ⟨by decide, (claim_C3 pipTable1 []).2 (by decide)⟩

/-- C10: on any table produced by `RollProbabilities::new` with positive
total, `get_odds` with an empty target list returns exactly 1 (the empty
conjunction holds on every outcome key, so the numerator is the whole
total). -/
theorem claim_C10 (dice : List Die) (policy : RollCollectionPolicy)
    (t : RollProbabilities)
    (hmk : RollProbabilities.new dice policy = some (Except.ok t))
    (hpos : 0 < t.total) :
    t.get_odds [] = 1 := by
  have htot : t.total = sumCounts t.occurrences := new_total_eq hmk
  rw [RollProbabilities.get_odds, if_neg (Nat.pos_iff_ne_zero.mp hpos),
    oddsNumerator_nil, ← htot]
  exact div_self (by exact_mod_cast Nat.pos_iff_ne_zero.mp hpos)

set_option maxRecDepth 40000 in
/-- Witness for C10: the concrete one-d4 collect-all table has total 4 > 0
and empty-target odds exactly 1. -/
theorem claim_C10_witness :
    RollProbabilities.new [standard.d4]
        (RollCollectionPolicy.collect_all [standard.pip]) =
      some (Except.ok d4Table) ∧
    0 < d4Table.total ∧ d4Table.get_odds [] = 1 :=
  ⟨by decide, by decide,
    claim_C10 [standard.d4] (RollCollectionPolicy.collect_all [standard.pip])
      d4Table (by decide) (by decide)⟩

/-- C5: contrary to the claim, an oversized `n` is not rejected with an
explicit error: `collect_symbols` hits the `usize` underflow `sides_len - n`
(a panic, modelled as `none`) for the take-lowest and remove-lowest kinds,
and `RollProbabilities::new` with such a policy panics instead of returning
`Err`; the spec itself records this guard as missing in the source (§9). -/
theorem claim_C5_panics :
    collect_symbols [⟨[standard.pip]⟩]
        (RollCollectionPolicy.take_lowest_n_of 2 [standard.pip]) = none ∧
    collect_symbols [⟨[standard.pip]⟩]
        (RollCollectionPolicy.remove_lowest_n_of 2 [standard.pip]) = none ∧
    RollProbabilities.new [standard.n_sided_die 2]
        (RollCollectionPolicy.take_lowest_n_of 2 [standard.pip]) = none :=
  ⟨rfl, rfl, rfl⟩

/-- C6: contrary to the claim, `next` on an enumerator holding an empty input
sequence does not return `None`: it indexes `sets[i][0]` out of bounds on the
very first call (a panic, modelled as `none`), before any exhaustion check
can fire. -/
theorem claim_C6_panics :
    MultiCartesianProduct.next
        (MultiCartesianProduct.new ([[]] : List (List Nat))) = none ∧
    MultiCartesianProduct.next
        (MultiCartesianProduct.new ([[], [0]] : List (List Nat))) = none ∧
    MultiCartesianProduct.next
        (MultiCartesianProduct.new ([[0], []] : List (List Nat))) = none :=
  ⟨rfl, rfl, rfl⟩

set_option maxRecDepth 200000 in
/-- C9: three standard d4 with take-highest-2 over the pip symbol give a
table of total 64, odds exactly 1/4 for exactly 6 pips and exactly 1/64 for
exactly 2 pips (the `f64` results 0.25 and 0.015625 are these dyadic
rationals, represented exactly). -/
theorem claim_C9 : ∃ t : RollProbabilities,
    RollProbabilities.new [standard.d4, standard.d4, standard.d4]
        (RollCollectionPolicy.take_highest_n_of 2 [standard.pip]) =
      some (Except.ok t) ∧
    t.total = 64 ∧
    t.get_odds [RollTarget.exactly_n_of 6 [standard.pip]] = 1 / 4 ∧
    t.get_odds [RollTarget.exactly_n_of 2 [standard.pip]] = 1 / 64 := by
  have h : ((RollProbabilities.new [standard.d4, standard.d4, standard.d4]
        (RollCollectionPolicy.take_highest_n_of 2 [standard.pip])).bind
      (fun r => r.toOption)).map
      (fun t => (t.total,
        oddsNumerator t [RollTarget.exactly_n_of 6 [standard.pip]],
        oddsNumerator t [RollTarget.exactly_n_of 2 [standard.pip]])) =
      some (64, 16, 1) := by decide
  obtain ⟨t, ht⟩ : ∃ t, RollProbabilities.new [standard.d4, standard.d4, standard.d4]
      (RollCollectionPolicy.take_highest_n_of 2 [standard.pip]) =
        some (Except.ok t) := by
    revert h
    cases RollProbabilities.new [standard.d4, standard.d4, standard.d4]
        (RollCollectionPolicy.take_highest_n_of 2 [standard.pip]) with
    | none => intro h; simp at h
    | some r =>
      cases r with
      | error e => intro h; simp [Except.toOption] at h
      | ok t => intro _; exact ⟨t, rfl⟩
  rw [ht] at h
  simp [Except.toOption] at h
  obtain ⟨h1, h2, h3⟩ := h
  refine ⟨t, ht, h1, ?_, ?_⟩
  · rw [RollProbabilities.get_odds, if_neg (by rw [h1]; norm_num), h2, h1]
    norm_num
  · rw [RollProbabilities.get_odds, if_neg (by rw [h1]; norm_num), h3, h1]
    norm_num

/-- C4: over non-empty sequences, the iterator started by `new` yields the
full odometer enumeration (sequence 0 varying fastest) and then signals
exhaustion; the enumeration realises every in-bounds index tuple exactly
once (the index odometer is duplicate-free and complete) and has length
equal to the product of the sequence lengths. -/
theorem claim_C4 {α : Type} (sets : List (List α))
    (h : ∀ x ∈ sets, x ≠ []) :
    (∃ fuel out, runFuel fuel (MultiCartesianProduct.new sets) = some out ∧
      out = odometer sets) ∧
    (odometer sets).length = (sets.map List.length).prod ∧
    (odoIdx (sets.map List.length)).map (selectAt sets) =
      (odometer sets).map some ∧
    (odoIdx (sets.map List.length)).Nodup ∧
    (∀ ix, ix ∈ odoIdx (sets.map List.length) ↔
      validIdx ix (sets.map List.length)) := by
  have hpos : ∀ m ∈ sets.map List.length, 0 < m := by
    intro m hm
    simp only [List.mem_map] at hm
    obtain ⟨x, hx, rfl⟩ := hm
    exact List.length_pos.mpr (h x hx)
  refine ⟨?_, odometer_length sets, mapSelect sets, odoIdx_nodup _,
    fun ix => odoIdx_mem _ ix⟩
  have hvalid := validIdx_zero hpos
  have hzero := odoFrom_zero (sets.map List.length) hpos
  obtain ⟨out, hrun, hmap⟩ := simRun sets
    ((odoFrom ((sets.map List.length).map (fun _ => 0))
      (sets.map List.length)).length)
    ((sets.map List.length).map (fun _ => 0)) hvalid rfl
  refine ⟨(odoFrom ((sets.map List.length).map (fun _ => 0))
      (sets.map List.length)).length + 1, out, ?_, ?_⟩
  · rw [show MultiCartesianProduct.new sets =
      ⟨sets, sets.map List.length,
        (sets.map List.length).map (fun _ => 0), false⟩ from by
      unfold MultiCartesianProduct.new
      rw [List.map_map]
      rfl]
    exact hrun
  · have : out.map some = (odometer sets).map some := by
      rw [hmap, hzero, mapSelect]
    exact List.map_injective_iff.mpr (Option.some_injective (List α)) this

/-- Witness for C4: two concrete sequences satisfy the non-emptiness
hypothesis, and the conclusion holds there. -/
theorem claim_C4_witness :
    (∀ x ∈ [[1, 2, 3], [4, 5]], x ≠ ([] : List Nat)) ∧
    ((∃ fuel out,
        runFuel fuel (MultiCartesianProduct.new [[1, 2, 3], [4, 5]]) =
          some out ∧
        out = odometer [[1, 2, 3], [4, 5]]) ∧
      (odometer [[1, 2, 3], [4, 5]]).length =
        ([[1, 2, 3], [4, 5]].map List.length).prod ∧
      (odoIdx ([[1, 2, 3], [4, 5]].map List.length)).map
          (selectAt [[1, 2, 3], [4, 5]]) =
        (odometer [[1, 2, 3], [4, 5]]).map some ∧
      (odoIdx ([[1, 2, 3], [4, 5]].map List.length)).Nodup ∧
      (∀ ix, ix ∈ odoIdx ([[1, 2, 3], [4, 5]].map List.length) ↔
        validIdx ix ([[1, 2, 3], [4, 5]].map List.length))) :=
  ⟨by decide, claim_C4 [[1, 2, 3], [4, 5]] (by decide)⟩

/-- C1 counterexample: with relevant set {A, B} and the roll (side [A],
side [B]) — both sides scoring 1 — take-highest-1 collects [B], whereas the
claimed stable descending ranking (ties keeping original per-die order)
would collect [A]: the code's ascending stable sort followed by `reverse`
puts equal-score sides in reversed input order. -/
theorem claim_C1_counterexample :
    collect_symbols [⟨[⟨"A"⟩]⟩, ⟨[⟨"B"⟩]⟩]
        (RollCollectionPolicy.take_highest_n_of 1 [⟨"A"⟩, ⟨"B"⟩]) =
      some [⟨"B"⟩] ∧
    collect_symbols_specC1 [⟨[⟨"A"⟩]⟩, ⟨[⟨"B"⟩]⟩]
        (RollCollectionPolicy.take_highest_n_of 1 [⟨"A"⟩, ⟨"B"⟩]) =
      some [⟨"A"⟩] ∧
    (⟨"A"⟩ : DieSymbol) ≠ ⟨"B"⟩ := by
  refine ⟨rfl, rfl, by decide⟩

/-- C1 amended: `collect_symbols` ranks the filtered sides by relevance score
descending with equal scores in REVERSED per-die input order (the unique
list `R` of index-tagged filtered sides that is a permutation of the input
tagging, pairwise sorted by descending score with ties in descending index),
and the keep/drop selection is taken from exactly that ranking. -/
theorem claim_C1_amended (roll : List DieSide) (policy : RollCollectionPolicy) :
    ∃ R : List (List DieSymbol × Nat),
      R.Perm (indexedFrom 0 (filteredSides roll policy)) ∧
      R.Pairwise rankGT ∧
      rankedSides roll policy = R.map Prod.fst ∧
      collect_symbols roll policy = specSelect policy (R.map Prod.fst) := by
  refine ⟨(List.insertionSort rankLE
      (indexedFrom 0 (filteredSides roll policy))).reverse, ?_, ?_, ?_, ?_⟩
  · exact (List.reverse_perm _).trans (List.perm_insertionSort _ _)
  · have hs : (List.insertionSort rankLE
        (indexedFrom 0 (filteredSides roll policy))).Pairwise rankLE :=
      List.sorted_insertionSort rankLE _
    have hrev : (List.insertionSort rankLE
          (indexedFrom 0 (filteredSides roll policy))).reverse.Pairwise
        (fun a b => rankLE b a) :=
      List.pairwise_reverse.mpr hs
    have hnd : ((List.insertionSort rankLE
        (indexedFrom 0 (filteredSides roll policy))).reverse.map
          Prod.snd).Nodup := by
      have hperm : ((List.insertionSort rankLE
          (indexedFrom 0 (filteredSides roll policy))).reverse.map
            Prod.snd).Perm
          ((indexedFrom 0 (filteredSides roll policy)).map Prod.snd) :=
        ((List.reverse_perm _).trans (List.perm_insertionSort _ _)).map _
      rw [hperm.nodup_iff, indexedFrom_map_snd]
      exact List.nodup_range' 0 _
    have hne : (List.insertionSort rankLE
          (indexedFrom 0 (filteredSides roll policy))).reverse.Pairwise
        (fun a b => a.2 ≠ b.2) :=
      List.pairwise_map.mp hnd
    refine (hrev.and hne).imp ?_
    rintro a b ⟨hle, hab⟩
    unfold rankLE at hle
    unfold rankGT
    omega
  · unfold rankedSides
    rw [insertionSort_indexed (filteredSides roll policy) 0, List.map_reverse]
  · rw [collect_symbols_eq_specSelect]
    unfold rankedSides
    rw [insertionSort_indexed (filteredSides roll policy) 0, List.map_reverse]

/-- C7 counterexample: `add_amount` with amount 0 inserts a key with stored
count 0, so the two counters below agree on `get_count` at every item yet are
not equal under the derived map equality (their key sets differ), refuting
the claimed equivalence for arbitrary `add`/`add_amount` sequences. -/
theorem claim_C7_counterexample :
    (∀ t : Nat, (ItemCounter.ofOps [((0 : Nat), 0)]).get_count t =
        (ItemCounter.ofOps ([] : List (Nat × Nat))).get_count t) ∧
    ¬ (ItemCounter.ofOps [((0 : Nat), 0)]).rustEq
        (ItemCounter.ofOps ([] : List (Nat × Nat))) := by
  constructor
  · intro t
    show (ItemCounter.get_count ⟨[(0, 0)]⟩ t = ItemCounter.get_count ⟨[]⟩ t)
    unfold ItemCounter.get_count
    by_cases h : (0 : Nat) = t
    · rw [List.find?_cons_of_pos _ (by simpa using h)]
      rfl
    · rw [List.find?_cons_of_neg _ (by simpa using h)]
  · rintro ⟨hlen, -⟩
    have : ((ItemCounter.ofOps [((0 : Nat), 0)]).items).length = 1 := rfl
    rw [this] at hlen
    cases hlen

/-- C7 amended: for counters built by `add`/`add_amount` sequences whose
amounts are all positive, derived map equality holds exactly when `get_count`
agrees on every item, and equal counters feed the hasher the identical item
sequence (keys sorted by the total order, independent of insertion order). -/
theorem claim_C7_amended {T : Type} [LinearOrder T]
    (opsA opsB : List (T × Nat))
    (hA : ∀ op ∈ opsA, 0 < op.2) (hB : ∀ op ∈ opsB, 0 < op.2) :
    ((ItemCounter.ofOps opsA).rustEq (ItemCounter.ofOps opsB) ↔
      ∀ t, (ItemCounter.ofOps opsA).get_count t =
        (ItemCounter.ofOps opsB).get_count t) ∧
    ((ItemCounter.ofOps opsA).rustEq (ItemCounter.ofOps opsB) →
      (ItemCounter.ofOps opsA).hashSeq = (ItemCounter.ofOps opsB).hashSeq) := by
  have hndA := ofOps_keys_nodup opsA
  have hndB := ofOps_keys_nodup opsB
  have hvA := ofOps_values_pos opsA hA
  have hvB := ofOps_values_pos opsB hB
  constructor
  · rw [rustEq_iff_lookup_eq hndA hndB]
    exact (counts_eq_iff_lookup_eq hvA hvB).symm
  · intro he
    exact hashSeq_eq_of_lookup_eq hndA hndB
      ((rustEq_iff_lookup_eq hndA hndB).mp he)

/-- Witness for C7 amended: two counters over `Nat` built in opposite
insertion orders satisfy the positivity hypotheses and the equivalence. -/
theorem claim_C7_amended_witness :
    (∀ op ∈ [((5 : Nat), (1 : Nat)), (3, 2)], 0 < op.2) ∧
    (∀ op ∈ [((3 : Nat), (2 : Nat)), (5, 1)], 0 < op.2) ∧
    ((ItemCounter.ofOps [((5 : Nat), (1 : Nat)), (3, 2)]).rustEq
        (ItemCounter.ofOps [((3 : Nat), (2 : Nat)), (5, 1)]) ↔
      ∀ t, (ItemCounter.ofOps [((5 : Nat), (1 : Nat)), (3, 2)]).get_count t =
        (ItemCounter.ofOps [((3 : Nat), (2 : Nat)), (5, 1)]).get_count t) ∧
    ((ItemCounter.ofOps [((5 : Nat), (1 : Nat)), (3, 2)]).rustEq
        (ItemCounter.ofOps [((3 : Nat), (2 : Nat)), (5, 1)]) →
      (ItemCounter.ofOps [((5 : Nat), (1 : Nat)), (3, 2)]).hashSeq =
        (ItemCounter.ofOps [((3 : Nat), (2 : Nat)), (5, 1)]).hashSeq) :=
  ⟨by decide, by decide,
    (claim_C7_amended [((5 : Nat), (1 : Nat)), (3, 2)]
      [((3 : Nat), (2 : Nat)), (5, 1)] (by decide) (by decide)).1,
    (claim_C7_amended [((5 : Nat), (1 : Nat)), (3, 2)]
      [((3 : Nat), (2 : Nat)), (5, 1)] (by decide) (by decide)).2⟩

end ArtDice
